import Mathlib

/-!
Verification of the NeuralMorphoTagger dependency-parser core.

This file shallowly embeds the relevant parts of the repository:

* `src/neural_LM/UD_preparation/read_tags.py` — `descr_to_feats` and
  `is_subsumed` (morphological tag feature subsumption);
* `src/syntax/network.py` — `evaluate_heads`, the prediction pipeline
  (`predict`, `predict_heads`, `predict_deps`) and the vocabulary-building
  part of `train`;
* the tree decoder `chu_liu_edmonds` (external `dependency_decoding`
  package, not shipped in the repository) is modelled from the spec's
  description of the Chu–Liu/Edmonds maximum spanning arborescence
  algorithm.

Machine floats are modelled by `ℚ`; Python exceptions by `Except`/`Option`.
-/

/-- Equality on `Except` results is decidable componentwise. -/
instance {ε α : Type} [DecidableEq ε] [DecidableEq α] : DecidableEq (Except ε α)
  | Except.error a, Except.error b =>
    if h : a = b then isTrue (by rw [h]) else isFalse (by intro hc; cases hc; exact h rfl)
  | Except.error _, Except.ok _ => isFalse (by intro hc; cases hc)
  | Except.ok _, Except.error _ => isFalse (by intro hc; cases hc)
  | Except.ok a, Except.ok b =>
    if h : a = b then isTrue (by rw [h]) else isFalse (by intro hc; cases hc; exact h rfl)

/-! ## Tag utilities (`read_tags.py`) -/

/-- Split a character list at every occurrence of `sep` (Python
`str.split` with a one-character separator). -/
def splitChar (sep : Char) : List Char → List (List Char)
  | [] => [[]]
  | c :: rest =>
    match splitChar sep rest with
    | [] => [[c]]
    | x :: xs => if c = sep then [] :: x :: xs else (c :: x) :: xs

/-- Python `s.split(sep)` for a one-character separator (all separators used
by `read_tags.py` are single characters). -/
def splitOnC (s : String) (sep : Char) : List String :=
  (splitChar sep s.data).map String.mk

/-- Interpose `sep` between the pieces (used to undo a split beyond
`maxsplit=1`). -/
def interChar (sep : Char) : List (List Char) → List Char
  | [] => []
  | [x] => x
  | x :: y :: xs => x ++ sep :: interChar sep (y :: xs)

/-- Python `s.split(sep, maxsplit=1)`: the part before the first occurrence
of `sep`, and, when `sep` occurs, the remainder (with later occurrences of
`sep` kept intact). -/
def splitOn1 (s : String) (sep : Char) : String × Option String :=
  match splitOnC s sep with
  | [] => (s, none)
  | [x] => (x, none)
  | x :: rest => (x, some (String.mk (interChar sep (rest.map String.data))))

/-- Python `elem.split("=", maxsplit=1)` followed by `values.split(",")`
inside `descr_to_feats`; `none` models the `ValueError` Python raises when
the clause has no `=`. -/
def parseFeat (elem : String) : Option (String × List String) :=
  match splitOn1 elem '=' with
  | (k, some v) => some (k, splitOnC v ',')
  | (_, none) => none

/-- Embedding of `descr_to_feats` (with `return_dict=False`): the POS part
before the first comma and the flattened list of `(key, value)` pairs, one
pair per comma-separated value of each `|`-separated feature clause. -/
def descrToFeats (symbol : String) : Option (String × List (String × String)) :=
  match splitOn1 symbol ',' with
  | (sym, none) => some (sym, [])
  | (sym, some feats) =>
    match (splitOnC feats '|').mapM parseFeat with
    | none => none
    | some kvs => some (sym, kvs.flatMap (fun kv => kv.2.map (fun v => (kv.1, v))))

/-- One insertion step of Python `dict(fields)`: a later value for an
existing key overwrites the earlier one in place, a new key is appended. -/
def dictInsert (d : List (String × String)) (k v : String) : List (String × String) :=
  if d.any (fun p => p.1 == k) then d.map (fun p => if p.1 == k then (k, v) else p)
  else d ++ [(k, v)]

/-- Python `dict(fields)` built from an association list, last value wins. -/
def dictOf (l : List (String × String)) : List (String × String) :=
  l.foldl (fun d p => dictInsert d p.1 p.2) []

/-- Python `d.get(key)` on the dictionary model. -/
def dictGet (d : List (String × String)) (k : String) : Option String :=
  (d.find? (fun p => p.1 == k)).map Prod.snd

/-- The value normalisation applied to the first tag's features inside
`is_subsumed`: `Ptan` is read as `Plur` and `Brev` as `Short`. -/
def normVal (v : String) : String :=
  if v = "Ptan" then "Plur" else if v = "Brev" then "Short" else v

/-- Embedding of `is_subsumed`: both tags are parsed with
`descr_to_feats(·, return_dict=True)`; `none` models a parse failure. -/
def isSubsumed (t1 t2 : String) : Option Bool :=
  match descrToFeats t1, descrToFeats t2 with
  | some (p1, f1), some (p2, f2) =>
    let d1 := dictOf f1
    let d2 := dictOf f2
    if p1 ≠ p2 then some false
    else some (d1.all (fun kv =>
      if kv.1 == "Abbr" then true
      else decide (dictGet d2 kv.1 = some (normVal kv.2))))
  | _, _ => none

/-- The subsumption relation exactly as the claim states it, over the raw
(flattened) feature pair lists of the two tags: the POS parts agree and
every feature pair of the first tag (skipping key `Abbr`, normalising the
value) appears among the second tag's feature pairs with that very value.
This is a spec-side definition used to compare the claim against the code. -/
def claimSubsumes (t1 t2 : String) : Prop :=
  ∃ p1 f1 p2 f2, descrToFeats t1 = some (p1, f1) ∧ descrToFeats t2 = some (p2, f2) ∧
    p1 = p2 ∧ ∀ kv ∈ f1, kv.1 ≠ "Abbr" → (kv.1, normVal kv.2) ∈ f2

/-! ## Evaluation helper (`evaluate_heads`) -/

/-- The inner loop of `evaluate_heads` over one sentence pair: the number of
positions with equal heads and the `has_nonequal` flag. -/
def countSent (g p : List Nat) : Nat × Bool :=
  (g.zip p).foldl
    (fun acc xy => (acc.1 + (if xy.1 = xy.2 then 1 else 0), acc.2 || decide (xy.1 ≠ xy.2)))
    (0, false)

/-- One iteration of the `evaluate_heads` loop: strip the two boundary
positions when the gold sentence is exactly two longer, raise on any other
length mismatch, otherwise update the `(corr, total, corr_sents)`
accumulator. -/
def processPair (acc : Nat × Nat × Nat) (gp : List Nat × List Nat) :
    Except String (Nat × Nat × Nat) :=
  let g := if gp.1.length = gp.2.length + 2 then (gp.1.drop 1).dropLast else gp.1
  if g.length ≠ gp.2.length then Except.error "Different sentence lengths."
  else
    let cs := countSent g gp.2
    Except.ok (acc.1 + cs.1, acc.2.1 + g.length, acc.2.2 + (if cs.2 then 0 else 1))

/-- Embedding of `evaluate_heads`.  Gold/predicted sentence lists are zipped;
the result is `(corr, total, corr/total, corr_sents, #gold sentences,
corr_sents/#gold sentences)`.  The two divisions raise `ZeroDivisionError`
in Python when a denominator is zero, modelled by the error branches. -/
def evaluateHeads (corrHeads predHeads : List (List Nat)) :
    Except String (Nat × Nat × ℚ × Nat × Nat × ℚ) :=
  match (corrHeads.zip predHeads).foldlM processPair (0, 0, 0) with
  | Except.error e => Except.error e
  | Except.ok r =>
    if r.2.1 = 0 then Except.error "division by zero"
    else if corrHeads.length = 0 then Except.error "division by zero"
    else Except.ok (r.1, r.2.1, (r.1 : ℚ) / (r.2.1 : ℚ), r.2.2,
                    corrHeads.length, (r.2.2 : ℚ) / (corrHeads.length : ℚ))

/-- The accumulator update of a non-raising `evaluate_heads` iteration
(the `Except.ok` payload of `processPair`). -/
def accStep (acc : Nat × Nat × Nat) (gp : List Nat × List Nat) : Nat × Nat × Nat :=
  let g := if gp.1.length = gp.2.length + 2 then (gp.1.drop 1).dropLast else gp.1
  let cs := countSent g gp.2
  (acc.1 + cs.1, acc.2.1 + g.length, acc.2.2 + (if cs.2 then 0 else 1))

/-- The total accumulator run of the `evaluate_heads` loop in the case where
no sentence pair raises (used to state what the function computes). -/
def accumPairs (pairs : List (List Nat × List Nat)) : Nat × Nat × Nat :=
  pairs.foldl accStep (0, 0, 0)

/-! ## Tree decoder (Chu–Liu/Edmonds)

Modelled from the spec: the `chu_liu_edmonds` function is imported from the
external `dependency_decoding` package and its code is not part of the
repository.  The spec describes it as the Chu–Liu/Edmonds maximum spanning
arborescence algorithm: greedily pick the best head for every non-root
node; if the choice is acyclic return it, otherwise contract a cycle,
recompute the edge weights by the adjusted-weight rule, recurse, and expand
the contraction breaking the cycle at the node that received the external
head.  Nodes are `0, …, n-1` with `0` the virtual root; `score v u` is the
weight of dependent `v` choosing head `u`. -/

/-- Head-pointer paths: `v` reaches the virtual root `0` by following `g`. -/
inductive ReachesRoot (g : Nat → Nat) : Nat → Prop where
  | base : ReachesRoot g 0
  | step : ∀ v, ReachesRoot g (g v) → ReachesRoot g v

/-- Index of the first maximum of `f` over a list (as `np.argmax` ties). -/
def argmaxList (f : Nat → ℚ) : List Nat → Option Nat
  | [] => none
  | x :: xs =>
    match argmaxList f xs with
    | none => some x
    | some y => if f x < f y then some y else some x

/-- Modelled from the spec: greedy step of Chu–Liu/Edmonds — each non-root
node selects its highest-scoring head among the other alive nodes. -/
def greedyHead (score : Nat → Nat → ℚ) (alive : List Nat) (v : Nat) : Nat :=
  (argmaxList (score v) (alive.erase v)).getD 0

/-- Head pointers as a step function: the root is a fixed point. -/
def stepf (f : Nat → Nat) (v : Nat) : Nat := if v = 0 then 0 else f v

/-- The length of the cycle found at `w`: the least `k ≤ L` with
`g^[k] w = w` (1 when none exists, which cannot happen at a genuine cycle
entry point). -/
def clePeriod (g : Nat → Nat) (L w : Nat) : Nat :=
  match (List.range L).find? (fun j => g^[j+1] w == w) with
  | some j => j + 1
  | none => 1

/-- The members of the located cycle, starting at its entry point `w`. -/
def cycleList (g : Nat → Nat) (k w : Nat) : List Nat :=
  (List.range k).map (fun j => g^[j] w)

/-- Modelled from the spec: the adjusted-weight rule of the contraction.
An edge from the contracted node (represented by `w`) to an external head
`u` scores as the best cycle member's gain `score c u - score c (f c)`
(subtract the cycle's internal edge weight, add the external one); an edge
into the contracted node scores as the best edge onto any cycle member;
all other edges keep their weight. -/
def contractScore (score : Nat → Nat → ℚ) (f : Nat → Nat) (C : List Nat) (w : Nat) :
    Nat → Nat → ℚ := fun v u =>
  if v = w then ((C.map (fun c => score c u - score c (f c))).max?).getD 0
  else if u = w then ((C.map (fun c => score v c)).max?).getD 0
  else score v u

/-- The alive nodes after contracting the cycle `C` into its entry `w`. -/
def contractAlive (alive C : List Nat) (w : Nat) : List Nat :=
  alive.filter (fun v => decide (v = w ∨ v ∉ C))

/-- The cycle member that receives the external head `u'` when the
contraction is expanded (the first maximiser of the adjusted weight). -/
def cleCstar (score : Nat → Nat → ℚ) (f : Nat → Nat) (C : List Nat) (w u' : Nat) : Nat :=
  (argmaxList (fun c => score c u' - score c (f c)) C).getD w

/-- Modelled from the spec: expansion of the contraction.  The chosen cycle
member `cstar` keeps the external head `h' w`; every other cycle member
keeps its greedy pointer (breaking the cycle in exactly one place);
external nodes that attached to the contracted node attach to their best
actual cycle member, and all others keep their decoded head. -/
def expandHeads (f h' : Nat → Nat) (C : List Nat) (w cstar : Nat) (bestC : Nat → Nat) :
    Nat → Nat := fun v =>
  if v ∈ C then (if v = cstar then h' w else f v)
  else if h' v = w then bestC v
  else h' v

/-- Modelled from the spec: one level of Chu–Liu/Edmonds.  `recur` decodes
the contracted graph.  If every alive node already reaches the root under
the greedy choice, the greedy choice is returned; otherwise a cycle is
located by iterating the greedy pointers, contracted into its entry node
`w` with the standard adjusted weights, decoded recursively, and expanded. -/
def cleStep (recur : List Nat → (Nat → Nat → ℚ) → Nat → Nat)
    (alive : List Nat) (score : Nat → Nat → ℚ) : Nat → Nat :=
  let f := greedyHead score alive
  let g := stepf f
  let L := alive.length
  match alive.find? (fun v => g^[L] v != 0) with
  | none => f
  | some v0 =>
    let w := g^[L] v0
    let k := clePeriod g L w
    let C := cycleList g k w
    let h' := recur (contractAlive alive C w) (contractScore score f C w)
    expandHeads f h' C w (cleCstar score f C w (h' w))
      (fun v => (argmaxList (fun c => score v c) C).getD w)

/-- Modelled from the spec: the Chu–Liu/Edmonds recursion.  Each contraction
removes at least one node, so `fuel = n` levels always suffice. -/
def cleAux : Nat → List Nat → (Nat → Nat → ℚ) → Nat → Nat
  | 0, alive, score => greedyHead score alive
  | fuel + 1, alive, score => cleStep (cleAux fuel) alive score

/-- Modelled from the spec: `chu_liu_edmonds` on an `n × n` score matrix.
Returns the full head list (index `0` is the virtual-root entry, fixed to
`0`); a non-square or smaller-than-2×2 matrix is a shape-mismatch error. -/
def chuLiuEdmonds (m : List (List ℚ)) : Except String (List Nat) :=
  let n := m.length
  if 2 ≤ n ∧ ∀ row ∈ m, row.length = n then
    let score : Nat → Nat → ℚ := fun v u => (m.getD v []).getD u 0
    let h := cleAux n (List.range n) score
    Except.ok ((List.range n).map (fun v => if v = 0 then 0 else h v))
  else Except.error "chu_liu_edmonds: input must be a square score matrix of size at least 2"

/-- The tree-decoding step of `predict_heads`:
`[chu_liu_edmonds(elem)[0][1:] for elem in probs]` — decode every sentence
matrix and drop the virtual-root entry; an exception aborts the whole list. -/
def cleDecodeAll (probs : List (List (List ℚ))) : Except String (List (List Nat)) :=
  probs.mapM (fun p => (chuLiuEdmonds p).map (fun full => full.drop 1))

/-- Following the decoded head sequence `hds` (indexed by dependent minus
one) from a node; the root `0` is a fixed point. -/
def followHeads (hds : List Nat) (v : Nat) : Nat :=
  if v = 0 then 0 else hds.getD (v - 1) 0

/-- The arborescence invariant for a head assignment on the alive nodes:
every non-root alive node has an alive head different from itself, and
every alive node reaches the virtual root by following head pointers. -/
def HeadSpec (alive : List Nat) (h : Nat → Nat) : Prop :=
  (∀ v ∈ alive, v ≠ 0 → h v ∈ alive ∧ h v ≠ v) ∧
  (∀ v ∈ alive, ReachesRoot (stepf h) v)

/-! ## Prediction pipeline (`predict`, `predict_heads`, `predict_deps`) -/

/-- Modelled from the spec: `pad_data` from `syntax.common` is not shipped
in the repository; the spec says sentences are wrapped with explicit
begin/end boundary markers. -/
def padData (data : List (List String)) : List (List String) :=
  data.map (fun sent => "<s>" :: sent ++ ["</s>"])

/-- The truncation `batch_probs[i][:k, :k]` in `predict_heads`. -/
def truncMat (m : List (List ℚ)) (k : Nat) : List (List ℚ) :=
  (m.take k).map (fun row => row.take k)

/-- The renormalisation `curr_probs /= np.sum(curr_probs, axis=-1)` in
`predict_heads`.  `np.sum(·, axis=-1)` is the vector of row sums; dividing
an `(n, n)` array by an `(n,)` vector broadcasts over the last axis, so
entry `[d][h]` is divided by the sum of row `h`. -/
def renormalizeCode (t : List (List ℚ)) : List (List ℚ) :=
  let s := t.map (fun row => row.sum)
  t.map (fun row => (row.zip s).map (fun xs => xs.1 / xs.2))

/-- The per-sentence probability matrices built by `predict_heads`: the head
model's output for the sentence (given by the oracle `model`, one square
matrix per padded sentence), truncated to `L-1` where `L` is the padded
sentence length, then renormalised.  The batching generator (external
`DataGenerator`) yields every sentence index exactly once, so the loop is a
map over sentences. -/
def headProbsFor (model : List String → List (List ℚ)) (data : List (List String)) :
    List (List (List ℚ)) :=
  data.map (fun sent => renormalizeCode (truncMat (model sent) (sent.length - 1)))

/-- The head-prediction step of `predict`: per-sentence probabilities, then
the Chu–Liu/Edmonds decode with the root entry dropped. -/
def predictHeadsFn (model : List String → List (List ℚ)) (data : List (List String)) :
    List (List (List ℚ)) × Except String (List (List Nat)) :=
  let probs := headProbsFor model data
  (probs, cleDecodeAll probs)

/-- Embedding of `predict_deps`: `answer = [None] * len(data)` filled once
per sentence index with the dependency-model labels (oracle `depModel`)
sliced to `[1:L-1]` and mapped through `dep_vocab.symbols_`. -/
def predictDeps (depModel : List String → List Nat → List Nat) (depVocab : List String)
    (data : List (List String)) (heads : List (List Nat)) : List (List String) :=
  (List.range data.length).map (fun i =>
    let sent := data.getD i []
    let labels := (depModel sent (heads.getD i [])).drop 1 |>.take (sent.length - 2)
    labels.map (fun c => depVocab.getD c "<UNK>"))

/-- Embedding of `predict`: pad the data, predict heads, then labels.  A
decoding failure propagates to the caller. -/
def predictFn (model : List String → List (List ℚ))
    (depModel : List String → List Nat → List Nat) (depVocab : List String)
    (data : List (List String)) : Except String (List (List Nat) × List (List String)) :=
  let padded := padData data
  match (predictHeadsFn model padded).2 with
  | Except.error e => Except.error e
  | Except.ok chl => Except.ok (chl, predictDeps depModel depVocab padded chl)

/-! ## Training-time vocabulary lifecycle (`train`, `_transform_data`,
`_transform_tags`) -/

/-- Modelled from the spec: `process_word` from `common.read` is not shipped
in the repository; the spec says words are lower-cased with a
first-letter-was-uppercase marker retained. -/
def processWord (w : String) : String :=
  if (w.toList.head?.map Char.isUpper).getD false then "<CAP>" ++ w.toLower else w.toLower

/-- Modelled from the spec: `Vocabulary(min_count=…).train` from
`common.vocabulary` is not shipped in the repository; the spec says a
vocabulary is a closed symbol table built once from training data with a
minimum-frequency cutoff. -/
def vocabTrain (minCount : Nat) (data : List (List String)) : List String :=
  let syms := data.flatten
  syms.dedup.filter (fun s => minCount ≤ syms.count s)

/-- Modelled from the spec: the `character=True` variant of
`Vocabulary.train` used for `symbol_vocabulary` collects characters. -/
def vocabTrainChar (minCount : Nat) (data : List (List String)) : List Char :=
  let syms := (data.flatten.map String.toList).flatten
  syms.dedup.filter (fun c => minCount ≤ syms.count c)

/-- Character index in the symbol vocabulary; an unseen character gets the
out-of-range index `vocab.length`, the designated unknown index. -/
def toidx (vocab : List Char) (c : Char) : Nat := vocab.indexOf c

/-- Embedding of `_recode` for one word: keep the last `maxLen` characters,
wrap with `BEGIN`/`END` codes and pad with `PAD` to width `maxLen + 2`
(`PAD`, `BEGIN`, `END` are opaque constants of `common.common`, modelled as
0, 1, 2). -/
def recodeWord (vocab : List Char) (maxLen : Nat) (w : String) : List Nat :=
  let word := (w.toList.reverse.take maxLen).reverse
  1 :: (word.map (toidx vocab) ++ (2 :: List.replicate (maxLen - word.length) 0))

/-- Encoded sentence data: raw sentences when the character model is off,
character-recoded sentences when it is on. -/
abbrev SentData := List (List String) ⊕ List (List (List Nat))

/-- The mutable parser attributes relevant to vocabulary lifecycle: the
three vocabularies plus the fitted models (recorded as the data each model
was fitted on). -/
structure ParserState where
  useTags : Bool
  useCharModel : Bool
  maxWordLength : Nat
  symbolVocabulary : Option (List Char)
  tagVocabulary : Option (List String)
  depVocab : Option (List String)
  headModelData : Option (SentData × List (List Nat) × Option SentData × Option (List (List Nat)))
  depModelData : Option (SentData × List (List Nat) × List (List String) × Option SentData
                          × Option (List (List String)) × Option (List (List Nat)))
  deriving Repr

/-- Embedding of `_transform_data`: process the words, retrain
`symbol_vocabulary` only when `to_train` is set, then recode every sentence
with the current vocabulary. -/
def transformData (st : ParserState) (sents : List (List String)) (toTrain : Bool) :
    ParserState × List (List (List Nat)) :=
  let sents' := sents.map (fun s => s.map processWord)
  let st' := if toTrain then { st with symbolVocabulary := some (vocabTrainChar 3 sents') } else st
  (st', sents'.map (fun s => s.map (recodeWord (st'.symbolVocabulary.getD []) st'.maxWordLength)))

/-- Embedding of `_transform_tags`: wrap each tag sentence with
`BEGIN`/`END`, retrain `tag_vocabulary` only when `to_train` is set, then
encode with the current vocabulary (`to_vector` modelled as the index). -/
def transformTags (st : ParserState) (sents : List (List String)) (toTrain : Bool) :
    ParserState × List (List Nat) :=
  let sents' := sents.map (fun s => "BEGIN" :: s ++ ["END"])
  let st' := if toTrain then { st with tagVocabulary := some (vocabTrain 3 sents') } else st
  (st', sents'.map (fun s => s.map (fun x => (st'.tagVocabulary.getD []).indexOf x)))

/-- Embedding of the vocabulary-relevant control flow of `train`: the symbol
and tag vocabularies are (re)built from the padded training sentences and
training tags only (`to_train=True`); development data is encoded with the
already-built vocabularies (`to_train` left `False`); `dep_vocab` is
trained on the training deps; finally the two models are fitted (recorded
here as the data they are fitted on).  `pad_data` is applied to sentences;
the spec does not describe its effect on heads and deps, which are passed
through. -/
def trainFn (st : ParserState) (sents : List (List String)) (heads : List (List Nat))
    (deps : List (List String)) (devSents : Option (List (List String)))
    (devHeads : Option (List (List Nat))) (devDeps : Option (List (List String)))
    (tags : Option (List (List String))) (devTags : Option (List (List String))) :
    ParserState :=
  let padded := padData sents
  let step1 : ParserState × SentData :=
    if st.useCharModel then
      let td := transformData st padded true
      (td.1, Sum.inr td.2)
    else (st, Sum.inl padded)
  let st1 := step1.1
  let sentData := step1.2
  let st2 :=
    match tags with
    | some t => (transformTags st1 t true).1
    | none => st1
  let devData : Option SentData :=
    match devSents with
    | some ds =>
      let dsp := padData ds
      some (if st2.useCharModel then Sum.inr (transformData st2 dsp false).2 else Sum.inl dsp)
    | none => none
  let devTagData : Option (List (List Nat)) :=
    match devSents with
    | some _ => if st2.useTags then some (transformTags st2 (devTags.getD []) false).2 else none
    | none => none
  let st3 := { st2 with depVocab := some (vocabTrain 3 deps) }
  let st4 := { st3 with headModelData := some (sentData, heads, devData, devHeads) }
  { st4 with depModelData := some (sentData, heads, deps, devData, devDeps, devTagData) }

/-- Embedding of `predict` as a method on the parser state: the body of
`predict`/`predict_heads`/`predict_deps` contains no assignment to any
`self` attribute, so the state is returned unchanged. -/
def predictStateful (st : ParserState) (model : List String → List (List ℚ))
    (depModel : List String → List Nat → List Nat) (data : List (List String)) :
    ParserState × Except String (List (List Nat) × List (List String)) :=
  (st, predictFn model depModel (st.depVocab.getD []) data)

/-! ## Helper lemmas -/

theorem mapM_except_error_of_mem {α β : Type} (f : α → Except String β) :
    ∀ (l : List α) (a : α), a ∈ l → ∀ e : String, f a = Except.error e →
      ∃ e', l.mapM f = Except.error e' := by
  intro l
  induction l with
  | nil => intro a ha; cases ha
  | cons x xs ih =>
    intro a ha e he
    rcases List.mem_cons.1 ha with rfl | hmem
    · refine ⟨e, ?_⟩
      rw [List.mapM_cons, he]
      rfl
    · cases hfx : f x with
      | error e2 => exact ⟨e2, by rw [List.mapM_cons, hfx]; rfl⟩
      | ok b =>
        obtain ⟨e', he'⟩ := ih a hmem e he
        refine ⟨e', ?_⟩
        rw [List.mapM_cons, hfx]
        show xs.mapM f >>= _ = _
        rw [he']
        rfl

theorem mapM_except_ok_length {α β : Type} (f : α → Except String β) :
    ∀ (l : List α) (r : List β), l.mapM f = Except.ok r → r.length = l.length := by
  intro l
  induction l with
  | nil =>
    intro r hr
    simp only [List.mapM_nil] at hr
    cases hr
    rfl
  | cons x xs ih =>
    intro r hr
    rw [List.mapM_cons] at hr
    cases hfx : f x with
    | error e => rw [hfx] at hr; cases hr
    | ok b =>
      rw [hfx] at hr
      cases hrest : xs.mapM f with
      | error e =>
        rw [show (Except.ok b >>= fun b => xs.mapM f >>= fun bs => pure (b :: bs)) =
              (xs.mapM f >>= fun bs => pure (b :: bs)) from rfl, hrest] at hr
        cases hr
      | ok bs =>
        rw [show (Except.ok b >>= fun b => xs.mapM f >>= fun bs => pure (b :: bs)) =
              (xs.mapM f >>= fun bs => pure (b :: bs)) from rfl, hrest] at hr
        cases hr
        simp [ih bs hrest]

theorem processPair_eq_ok (acc : Nat × Nat × Nat) (gp : List Nat × List Nat)
    (h : (if gp.1.length = gp.2.length + 2 then (gp.1.drop 1).dropLast else gp.1).length
          = gp.2.length) :
    processPair acc gp = Except.ok (accStep acc gp) := by
  simp only [processPair, accStep, h]
  simp

theorem stripped_length_ok (gp : List Nat × List Nat)
    (h : gp.1.length = gp.2.length ∨ gp.1.length = gp.2.length + 2) :
    (if gp.1.length = gp.2.length + 2 then (gp.1.drop 1).dropLast else gp.1).length
      = gp.2.length := by
  rcases h with h | h
  · rw [if_neg (by omega), h]
  · rw [if_pos h]
    simp [List.length_dropLast, List.length_drop, h]

theorem foldlM_processPair_ok :
    ∀ (pairs : List (List Nat × List Nat)) (acc : Nat × Nat × Nat),
      (∀ gp ∈ pairs, gp.1.length = gp.2.length ∨ gp.1.length = gp.2.length + 2) →
      pairs.foldlM processPair acc = Except.ok (pairs.foldl accStep acc) := by
  intro pairs
  induction pairs with
  | nil => intro acc _; rfl
  | cons x xs ih =>
    intro acc hgood
    rw [List.foldlM_cons, processPair_eq_ok acc x (stripped_length_ok x (hgood x (List.mem_cons_self x xs)))]
    show xs.foldlM processPair (accStep acc x) = _
    rw [ih (accStep acc x) (fun gp hgp => hgood gp (List.mem_cons_of_mem x hgp)), List.foldl_cons]

/-! ## Claims -/

/-- Claim C4: `evaluate_heads([[1,2,3]], [[1,2,3]])` yields word accuracy `1` and
sentence exact-match accuracy `1` (third and sixth result components), and
`evaluate_heads([[1,2,3]], [[1,2,0]])` yields word accuracy `2/3` and
sentence exact-match accuracy `0`. -/
theorem evaluate_heads_concrete_examples :
    evaluateHeads [[1, 2, 3]] [[1, 2, 3]] = Except.ok (3, 3, 1, 1, 1, 1) ∧
    evaluateHeads [[1, 2, 3]] [[1, 2, 0]] = Except.ok (2, 3, 2 / 3, 0, 1, 0) := by
  constructor
  · have h1 : ([[1, 2, 3]].zip [[1, 2, 3]]).foldlM processPair ((0, 0, 0) : Nat × Nat × Nat)
        = Except.ok (3, 3, 1) := by decide
    simp only [evaluateHeads, h1]
    norm_num
  · have h2 : ([[1, 2, 3]].zip [[1, 2, 0]]).foldlM processPair ((0, 0, 0) : Nat × Nat × Nat)
        = Except.ok (2, 3, 0) := by decide
    simp only [evaluateHeads, h2]
    norm_num

/-- Claim C9: `is_subsumed` is not reflexive — on the tag `NOUN,Number=Ptan` it
returns `False`, because the `Ptan → Plur` alias is applied only to the
first argument's feature values while the second argument's dictionary
keeps the raw value. -/
theorem is_subsumed_not_reflexive :
    isSubsumed "NOUN,Number=Ptan" "NOUN,Number=Ptan" = some false := by
  decide

/-- Claim C2 (code bug): the matrix `predict_heads` builds for a sentence —
`batch_probs[i][:L-1, :L-1]` followed by
`curr_probs /= np.sum(curr_probs, axis=-1)` — does not have rows summing
to 1 and does not zero the self positions.  For a one-word sentence
(padded length 3) and a perfectly row-normalised 3×3 model output, the
dependent row 0 sums to 35/36 ≠ 1 (numpy broadcasts the row-sum vector
over the last axis, dividing entry [d][h] by the sum of row h), and the
self entry [1][1] is 8/9 ≠ 0 (no masking is ever applied). -/
theorem predict_heads_renormalization_bug :
    ((((headProbsFor
          (fun _ => [[3/5, 1/5, 1/5], [1/10, 4/5, 1/10], [1/3, 1/3, 1/3]])
          (padData [["word"]])).getD 0 []).getD 0 []).sum ≠ 1) ∧
    (((headProbsFor
          (fun _ => [[3/5, 1/5, 1/5], [1/10, 4/5, 1/10], [1/3, 1/3, 1/3]])
          (padData [["word"]])).getD 0 []).getD 1 []).getD 1 0 ≠ 0 := by
  constructor <;> norm_num [headProbsFor, padData, renormalizeCode, truncMat]

/-- Claim C3: in `evaluate_heads`, a gold sentence exactly two longer than the
predicted one has exactly its first and last entries stripped before the
comparison (the pair is then scored normally), while any other nonzero
length difference — in either direction — raises the
"Different sentence lengths." error, so lengths are never silently
truncated. -/
theorem evaluate_heads_length_handling (g p : List Nat) (acc : Nat × Nat × Nat)
    (ch ph : List (List Nat)) :
    (g.length = p.length + 2 →
      processPair acc (g, p) =
        Except.ok (acc.1 + (countSent ((g.drop 1).dropLast) p).1,
                   acc.2.1 + p.length,
                   acc.2.2 + (if (countSent ((g.drop 1).dropLast) p).2 then 0 else 1))) ∧
    (g.length ≠ p.length → g.length ≠ p.length + 2 →
      processPair acc (g, p) = Except.error "Different sentence lengths." ∧
      evaluateHeads (g :: ch) (p :: ph) = Except.error "Different sentence lengths.") := by
  constructor
  · intro h
    have hlen : ((g.drop 1).dropLast).length = p.length := by
      simp [List.length_dropLast, List.length_drop, h]
    have := processPair_eq_ok acc (g, p) (by simp [h, hlen])
    rw [this]
    simp only [accStep]
    simp [h, hlen]
  · intro h1 h2
    have hperr : processPair acc (g, p) = Except.error "Different sentence lengths." := by
      simp only [processPair]
      rw [if_neg h2]
      simp [h1]
    refine ⟨hperr, ?_⟩
    have hperr0 : processPair (0, 0, 0) (g, p) = Except.error "Different sentence lengths." := by
      simp only [processPair]
      rw [if_neg h2]
      simp [h1]
    have hfold : ((g :: ch).zip (p :: ph)).foldlM processPair ((0, 0, 0) : Nat × Nat × Nat)
        = Except.error "Different sentence lengths." := by
      rw [List.zip_cons_cons, List.foldlM_cons, hperr0]
      rfl
    simp only [evaluateHeads, hfold]

/-- Closed instance of the C3 theorem: stripping `[9,1,2,9]` against
`[1,2]` keeps exactly the middle, and a length-1 difference raises. -/
theorem evaluate_heads_length_handling_witness :
    processPair (0, 0, 0) ([9, 1, 2, 9], [1, 2]) = Except.ok (2, 2, 1) ∧
    evaluateHeads [[1, 2]] [[1, 2, 3]] = Except.error "Different sentence lengths." := by
  constructor
  · rw [(evaluate_heads_length_handling [9, 1, 2, 9] [1, 2] (0, 0, 0) [] []).1 (by decide)]
    decide
  · exact ((evaluate_heads_length_handling [1, 2] [1, 2, 3] (0, 0, 0) [] []).2
      (by decide) (by decide)).2

/-- Claim C10: `evaluate_heads` raises no error when the gold and predicted lists
contain different numbers of sentences — it scores exactly the zipped
pairs — yet the sentence-level exact-match accuracy it returns is divided
by the total number of gold sentences `len(corr_heads)`, not by the number
of pairs actually compared. -/
theorem evaluate_heads_sentence_count_mismatch (ch ph : List (List Nat))
    (hgood : ∀ gp ∈ ch.zip ph, gp.1.length = gp.2.length ∨ gp.1.length = gp.2.length + 2)
    (htot : (accumPairs (ch.zip ph)).2.1 ≠ 0) (hne : ch.length ≠ 0) :
    evaluateHeads ch ph =
      Except.ok ((accumPairs (ch.zip ph)).1, (accumPairs (ch.zip ph)).2.1,
        ((accumPairs (ch.zip ph)).1 : ℚ) / ((accumPairs (ch.zip ph)).2.1 : ℚ),
        (accumPairs (ch.zip ph)).2.2, ch.length,
        ((accumPairs (ch.zip ph)).2.2 : ℚ) / (ch.length : ℚ)) := by
  have hfold := foldlM_processPair_ok (ch.zip ph) (0, 0, 0) hgood
  simp only [evaluateHeads, hfold]
  rw [if_neg (show ¬((ch.zip ph).foldl accStep (0, 0, 0)).2.1 = 0 from htot), if_neg hne]
  rfl

/-- Closed instance of the C10 theorem: three gold sentences against one
predicted sentence score only the single zipped pair but divide the
sentence accuracy by 3. -/
theorem evaluate_heads_sentence_count_mismatch_witness :
    evaluateHeads [[1], [2], [3]] [[1]] = Except.ok (1, 1, 1, 1, 3, 1 / 3) := by
  have h := evaluate_heads_sentence_count_mismatch [[1], [2], [3]] [[1]]
    (by decide) (by decide) (by decide)
  rw [h]
  have ha : accumPairs ([[1], [2], [3]].zip [[1]]) = (1, 1, 1) := by decide
  rw [ha]
  norm_num

/-- Claim C8 (counterexample): the claim reads `is_subsumed` as quantifying over
every raw feature pair of the first tag, but the code collapses the parsed
pairs into a dictionary (last value per key wins) on both sides before
comparing.  On `is_subsumed("N,A=x,y", "N,A=y")` the first tag's raw pairs
are `(A,x)` and `(A,y)`; the pair `(A,x)` does not appear in the second
tag's features, so the claimed characterisation says `False`, yet the code
returns `True` because only the last value `y` of key `A` survives. -/
theorem is_subsumed_claim_counterexample :
    isSubsumed "N,A=x,y" "N,A=y" = some true ∧ ¬ claimSubsumes "N,A=x,y" "N,A=y" := by
  constructor
  · decide
  · rintro ⟨p1, f1, p2, f2, h1, h2, hp, hall⟩
    have e1 : descrToFeats "N,A=x,y" = some ("N", [("A", "x"), ("A", "y")]) := by decide
    have e2 : descrToFeats "N,A=y" = some ("N", [("A", "y")]) := by decide
    rw [e1] at h1
    rw [e2] at h2
    injection h1 with h1'
    injection h2 with h2'
    cases h1'
    cases h2'
    have hmem := hall ("A", "x") (by simp) (by decide)
    simp [normVal] at hmem

/-- Claim C8 (amended): for tags whose features all parse, `is_subsumed` returns
`True` exactly when the POS parts (before the first comma) agree and every
key/value entry of the first tag's parsed feature dictionary — where a
repeated key keeps only its last value — except the key `Abbr`, after
reading `Ptan` as `Plur` and `Brev` as `Short`, is present with exactly
that value in the second tag's parsed feature dictionary. -/
theorem is_subsumed_dict_characterization (t1 t2 : String) (p1 p2 : String)
    (f1 f2 : List (String × String))
    (h1 : descrToFeats t1 = some (p1, f1)) (h2 : descrToFeats t2 = some (p2, f2)) :
    (isSubsumed t1 t2 = some true ↔
      (p1 = p2 ∧ ∀ kv ∈ dictOf f1, kv.1 ≠ "Abbr" →
        dictGet (dictOf f2) kv.1 = some (normVal kv.2))) := by
  have hunf : isSubsumed t1 t2 =
      (if p1 ≠ p2 then some false
       else some ((dictOf f1).all (fun kv =>
         if kv.1 == "Abbr" then true
         else decide (dictGet (dictOf f2) kv.1 = some (normVal kv.2))))) := by
    unfold isSubsumed
    rw [h1, h2]
  rw [hunf]
  by_cases hp : p1 = p2
  · rw [if_neg (by simp [hp])]
    simp only [Option.some.injEq, List.all_eq_true]
    constructor
    · intro hall
      refine ⟨hp, fun kv hkv hne => ?_⟩
      have h3 := hall kv hkv
      simp only [beq_iff_eq, if_neg hne, decide_eq_true_eq] at h3
      exact h3
    · rintro ⟨-, hall⟩
      intro kv hkv
      by_cases hab : kv.1 = "Abbr"
      · simp [hab]
      · simp only [beq_iff_eq, if_neg hab, decide_eq_true_eq]
        exact hall kv hkv hab
  · rw [if_pos (by simp [hp])]
    simp [hp]

/-- Closed instance of the amended C8 theorem: `ADJ,Variant=Brev` is
subsumed by `ADJ,Variant=Short|Degree=Pos` after the `Brev → Short`
normalisation. -/
theorem is_subsumed_dict_characterization_witness :
    isSubsumed "ADJ,Variant=Brev" "ADJ,Variant=Short|Degree=Pos" = some true := by
  refine (is_subsumed_dict_characterization "ADJ,Variant=Brev" "ADJ,Variant=Short|Degree=Pos"
    "ADJ" "ADJ" [("Variant", "Brev")] [("Variant", "Short"), ("Degree", "Pos")]
    (by decide) (by decide)).2 ⟨rfl, by decide⟩

/-- Claim C5: a score matrix of invalid shape — fewer than 2 rows, or some row of
a length different from the number of rows — makes the tree decoder fail
with the shape-mismatch error; the decoding step of `predict_heads`
surfaces the first such failure to the caller instead of decoding (the
single `mapM` pass makes exactly one attempt per matrix, with no retry). -/
theorem cle_shape_mismatch (probs : List (List (List ℚ))) (m : List (List ℚ))
    (hm : m ∈ probs)
    (hbad : ¬ (2 ≤ m.length ∧ ∀ row ∈ m, row.length = m.length)) :
    chuLiuEdmonds m =
      Except.error "chu_liu_edmonds: input must be a square score matrix of size at least 2" ∧
    ∃ e, cleDecodeAll probs = Except.error e := by
  have herr : chuLiuEdmonds m =
      Except.error "chu_liu_edmonds: input must be a square score matrix of size at least 2" := by
    unfold chuLiuEdmonds
    rw [if_neg hbad]
  refine ⟨herr, ?_⟩
  exact mapM_except_error_of_mem _ probs m hm _ (by rw [herr]; rfl)

/-- Closed instance of the C5 theorem: the 1×1 matrix `[[1]]` is rejected
and aborts the decoding of the whole batch. -/
theorem cle_shape_mismatch_witness :
    chuLiuEdmonds [[(1 : ℚ)]] =
      Except.error "chu_liu_edmonds: input must be a square score matrix of size at least 2" ∧
    ∃ e, cleDecodeAll [[[(1 : ℚ)]]] = Except.error e :=
  cle_shape_mismatch [[[(1 : ℚ)]]] [[(1 : ℚ)]] (by simp) (by decide)

/-- Claim C7: whenever `predict` returns, it returns a pair of lists with exactly
one head sequence and one label sequence per input sentence, in input
order: both output lists have the length of the input list. -/
theorem predict_output_lengths (model : List String → List (List ℚ))
    (depModel : List String → List Nat → List Nat) (depVocab : List String)
    (data : List (List String)) (hds : List (List Nat)) (lbls : List (List String))
    (h : predictFn model depModel depVocab data = Except.ok (hds, lbls)) :
    hds.length = data.length ∧ lbls.length = data.length := by
  simp only [predictFn] at h
  cases hdec : (predictHeadsFn model (padData data)).2 with
  | error e => rw [hdec] at h; cases h
  | ok chl =>
    rw [hdec] at h
    have hchl : chl = hds ∧ predictDeps depModel depVocab (padData data) chl = lbls := by
      have h' := h
      injection h' with h''
      exact ⟨congrArg Prod.fst h'', congrArg Prod.snd h''⟩
    obtain ⟨rfl, hlbls⟩ := hchl
    have hlen1 : chl.length = data.length := by
      have hmm : cleDecodeAll (headProbsFor model (padData data)) = Except.ok chl := hdec
      have := mapM_except_ok_length _ _ _ hmm
      simpa [headProbsFor, padData] using this
    refine ⟨hlen1, ?_⟩
    rw [← hlbls]
    simp [predictDeps, padData]

/-- Closed instance of the C7 theorem: one input sentence yields exactly one
head list and one label list. -/
theorem predict_output_lengths_witness :
    ([[0]] : List (List Nat)).length = ([["a"]] : List (List String)).length ∧
    ([["nsubj"]] : List (List String)).length = ([["a"]] : List (List String)).length :=
  predict_output_lengths (fun _ => [[1, 1, 1], [1, 1, 1], [1, 1, 1]]) (fun _ _ => [0, 0, 0])
    ["nsubj"] [["a"]] [[0]] [["nsubj"]] (by decide)

/-- Claim C6: `train` builds every vocabulary from the training inputs only — the
symbol vocabulary from the processed padded training sentences (only when
the character model is used), the tag vocabulary from the wrapped training
tags (only when tags are given), and the dependency vocabulary from the
training deps — while development data is encoded with the already-built
vocabularies and never influences them (the resulting vocabularies are
identical under arbitrary changes of all development arguments), and the
`predict` family leaves the parser state untouched. -/
theorem train_vocabularies_from_training_only
    (st : ParserState) (sents : List (List String)) (heads : List (List Nat))
    (deps : List (List String)) (tags : Option (List (List String)))
    (dSents1 dSents2 : Option (List (List String)))
    (dHeads1 dHeads2 : Option (List (List Nat)))
    (dDeps1 dDeps2 : Option (List (List String)))
    (dTags1 dTags2 : Option (List (List String))) :
    ((trainFn st sents heads deps dSents1 dHeads1 dDeps1 tags dTags1).symbolVocabulary =
       (if st.useCharModel
        then some (vocabTrainChar 3 ((padData sents).map (fun s => s.map processWord)))
        else st.symbolVocabulary)) ∧
    ((trainFn st sents heads deps dSents1 dHeads1 dDeps1 tags dTags1).tagVocabulary =
       (match tags with
        | some t => some (vocabTrain 3 (t.map (fun s => "BEGIN" :: s ++ ["END"])))
        | none => st.tagVocabulary)) ∧
    (trainFn st sents heads deps dSents1 dHeads1 dDeps1 tags dTags1).depVocab
       = some (vocabTrain 3 deps) ∧
    (trainFn st sents heads deps dSents1 dHeads1 dDeps1 tags dTags1).symbolVocabulary =
      (trainFn st sents heads deps dSents2 dHeads2 dDeps2 tags dTags2).symbolVocabulary ∧
    (trainFn st sents heads deps dSents1 dHeads1 dDeps1 tags dTags1).tagVocabulary =
      (trainFn st sents heads deps dSents2 dHeads2 dDeps2 tags dTags2).tagVocabulary ∧
    (trainFn st sents heads deps dSents1 dHeads1 dDeps1 tags dTags1).depVocab =
      (trainFn st sents heads deps dSents2 dHeads2 dDeps2 tags dTags2).depVocab ∧
    (∀ (st' : ParserState) (model : List String → List (List ℚ))
       (depModel : List String → List Nat → List Nat) (d : List (List String)),
       (predictStateful st' model depModel d).1 = st') := by
  cases tags <;> cases hc : st.useCharModel <;>
    simp [trainFn, transformData, transformTags, predictStateful, hc]

/-! ## Lemmas about the tree decoder -/

theorem argmaxList_eq_none (f : Nat → ℚ) : ∀ l : List Nat, argmaxList f l = none ↔ l = [] := by
  intro l
  cases l with
  | nil => simp [argmaxList]
  | cons x xs =>
    simp only [argmaxList]
    cases h : argmaxList f xs with
    | none => simp
    | some y =>
      constructor
      · intro hc
        by_cases hlt : f x < f y <;> simp [hlt] at hc
      · intro hc
        cases hc

theorem argmaxList_mem (f : Nat → ℚ) : ∀ (l : List Nat) (x : Nat),
    argmaxList f l = some x → x ∈ l := by
  intro l
  induction l with
  | nil => intro x hx; cases hx
  | cons a as ih =>
    intro x hx
    cases h : argmaxList f as with
    | none =>
      have ha : argmaxList f (a :: as) = some a := by simp [argmaxList, h]
      rw [ha] at hx
      cases hx
      exact List.mem_cons_self a as
    | some y =>
      by_cases hlt : f a < f y
      · have ha : argmaxList f (a :: as) = some y := by simp [argmaxList, h, hlt]
        rw [ha] at hx
        cases hx
        exact List.mem_cons_of_mem a (ih _ h)
      · have ha : argmaxList f (a :: as) = some a := by simp [argmaxList, h, hlt]
        rw [ha] at hx
        cases hx
        exact List.mem_cons_self a as

theorem greedyHead_spec (score : Nat → Nat → ℚ) (alive : List Nat) (v : Nat)
    (hnd : alive.Nodup) (h0 : 0 ∈ alive) (hv : v ∈ alive) (hv0 : v ≠ 0) :
    greedyHead score alive v ∈ alive ∧ greedyHead score alive v ≠ v := by
  have h0e : 0 ∈ alive.erase v := hnd.mem_erase_iff.2 ⟨Ne.symm hv0, h0⟩
  unfold greedyHead
  cases hax : argmaxList (score v) (alive.erase v) with
  | none =>
    exfalso
    rw [(argmaxList_eq_none (score v) (alive.erase v)).1 hax] at h0e
    cases h0e
  | some x =>
    have hx := argmaxList_mem (score v) (alive.erase v) x hax
    have := hnd.mem_erase_iff.1 hx
    exact ⟨this.2, Ne.symm (by simpa using this.1.symm)⟩

theorem stepf_iterate_zero (f : Nat → Nat) : ∀ m : Nat, (stepf f)^[m] 0 = 0 := by
  intro m
  induction m with
  | zero => rfl
  | succ m ih => rw [Function.iterate_succ_apply, stepf, if_pos rfl, ih]

theorem stepf_mem (score : Nat → Nat → ℚ) (alive : List Nat)
    (hnd : alive.Nodup) (h0 : 0 ∈ alive) (v : Nat) (hv : v ∈ alive) :
    stepf (greedyHead score alive) v ∈ alive := by
  unfold stepf
  by_cases hz : v = 0
  · rw [if_pos hz]; exact h0
  · rw [if_neg hz]; exact (greedyHead_spec score alive v hnd h0 hv hz).1

theorem stepf_iterate_mem (score : Nat → Nat → ℚ) (alive : List Nat)
    (hnd : alive.Nodup) (h0 : 0 ∈ alive) :
    ∀ (m : Nat) (v : Nat), v ∈ alive → (stepf (greedyHead score alive))^[m] v ∈ alive := by
  intro m
  induction m with
  | zero => intro v hv; exact hv
  | succ m ih =>
    intro v hv
    rw [Function.iterate_succ_apply]
    exact ih _ (stepf_mem score alive hnd h0 v hv)

theorem reaches_of_iterate (g : Nat → Nat) : ∀ (m : Nat) (v : Nat),
    g^[m] v = 0 → ReachesRoot g v := by
  intro m
  induction m with
  | zero =>
    intro v hv
    cases hv
    exact ReachesRoot.base
  | succ m ih =>
    intro v hv
    rw [Function.iterate_succ_apply] at hv
    exact ReachesRoot.step v (ih (g v) hv)

theorem exists_period (g : Nat → Nat) (alive : List Nat) (v0 : Nat)
    (hcl : ∀ v ∈ alive, g v ∈ alive) (hv0 : v0 ∈ alive) :
    ∃ p, 1 ≤ p ∧ p ≤ alive.length ∧
      g^[p] (g^[alive.length] v0) = g^[alive.length] v0 := by
  have hmem : ∀ m, g^[m] v0 ∈ alive := by
    intro m
    induction m with
    | zero => exact hv0
    | succ m ih => rw [Function.iterate_succ_apply']; exact hcl _ ih
  have key : ∀ i j : Nat, i < j → j ≤ alive.length → g^[i] v0 = g^[j] v0 →
      ∃ p, 1 ≤ p ∧ p ≤ alive.length ∧
        g^[p] (g^[alive.length] v0) = g^[alive.length] v0 := by
    intro i j hlt hle he
    refine ⟨j - i, by omega, by omega, ?_⟩
    have hx : g^[j - i] (g^[i] v0) = g^[i] v0 := by
      rw [← Function.iterate_add_apply]
      have hji : j - i + i = j := by omega
      rw [hji, ← he]
    have hL : g^[alive.length] v0 = g^[alive.length - i] (g^[i] v0) := by
      rw [← Function.iterate_add_apply]
      congr 1
      omega
    rw [hL, ← Function.iterate_add_apply, Nat.add_comm, Function.iterate_add_apply, hx]
  have hcard : (alive.toFinset).card < (Finset.range (alive.length + 1)).card := by
    have := alive.toFinset_card_le
    rw [Finset.card_range]
    omega
  obtain ⟨i, hi, j, hj, hij, heq⟩ :=
    Finset.exists_ne_map_eq_of_card_lt_of_maps_to hcard
      (fun i _ => List.mem_toFinset.2 (hmem i))
  rw [Finset.mem_range] at hi hj
  rcases Nat.lt_or_ge i j with hlt | hge
  · exact key i j hlt (by omega) heq
  · have hlt : j < i := by omega
    exact key j i hlt (by omega) heq.symm

theorem mod_pred (A k n : Nat) (hn : 1 ≤ n) (h : A % k = n) : (A - 1) % k = n - 1 := by
  cases k with
  | zero =>
    simp only [Nat.mod_zero] at h ⊢
    omega
  | succ k' =>
    have hdm := Nat.div_add_mod A (k' + 1)
    have hnk : n < k' + 1 := h ▸ Nat.mod_lt _ (Nat.succ_pos k')
    have hA : A - 1 = (k' + 1) * (A / (k' + 1)) + (n - 1) := by omega
    rw [hA, Nat.mul_add_mod]
    exact Nat.mod_eq_of_lt (by omega)

theorem cycle_reach (h0 g : Nat → Nat) (k w p : Nat) (hp : p < k)
    (hper : g^[k] w = w)
    (hagree : ∀ j, j < k → g^[j] w ≠ g^[p] w → h0 (g^[j] w) = g (g^[j] w))
    (hbase : ReachesRoot h0 (g^[p] w)) :
    ∀ j, j < k → ReachesRoot h0 (g^[j] w) := by
  suffices H : ∀ n j, j < k → (p + k - j) % k = n → ReachesRoot h0 (g^[j] w) by
    intro j hj
    exact H _ j hj rfl
  intro n
  induction n using Nat.strong_induction_on with
  | _ n ih =>
    intro j hj hd
    by_cases hcs : g^[j] w = g^[p] w
    · rw [hcs]; exact hbase
    · have hjp : j ≠ p := fun hc => hcs (by rw [hc])
      have hn1 : 1 ≤ n := by
        rcases Nat.eq_zero_or_pos n with hz | h1
        · exfalso
          subst hz
          have hge : 1 ≤ p + k - j := by omega
          have hle : p + k - j ≤ 2 * k - 1 := by omega
          obtain ⟨c, hc⟩ := Nat.dvd_of_mod_eq_zero hd
          have hc1 : c = 1 := by
            rcases Nat.lt_or_ge c 1 with hcc | hcc
            · exfalso
              have hc0 : c = 0 := by omega
              subst hc0
              simp at hc
              omega
            · rcases Nat.lt_or_ge c 2 with hc2 | hc2
              · omega
              · exfalso
                have hmul : k * 2 ≤ k * c := Nat.mul_le_mul_left k hc2
                omega
          subst hc1
          omega
        · exact h1
      have hstep : h0 (g^[j] w) = g^[j + 1] w := by
        rw [hagree j hj hcs, ← Function.iterate_succ_apply' g j w]
      by_cases hjk : j + 1 = k
      · have hp1 : p + 1 < k := by omega
        have hw0 : g^[j + 1] w = g^[0] w := by
          rw [hjk, hper]
          rfl
        have hdnew : (p + k - 0) % k = p := by
          have he : p + k - 0 = p + k := by omega
          rw [he, Nat.add_mod_right]
          exact Nat.mod_eq_of_lt hp
        have hn : n = p + 1 := by
          rw [← hd]
          have he : p + k - j = p + 1 := by omega
          rw [he, Nat.mod_eq_of_lt hp1]
        have hrec := ih p (by omega) 0 (by omega) hdnew
        exact ReachesRoot.step _ (by rw [hstep, hw0]; exact hrec)
      · have hj1 : j + 1 < k := by omega
        have hdnew : (p + k - (j + 1)) % k = n - 1 := by
          have he : p + k - (j + 1) = (p + k - j) - 1 := by omega
          rw [he]
          exact mod_pred _ _ _ hn1 hd
        have hrec := ih (n - 1) (by omega) (j + 1) hj1 hdnew
        exact ReachesRoot.step _ (by rw [hstep]; exact hrec)

theorem clePeriod_spec (g : Nat → Nat) (L w : Nat)
    (hex : ∃ p, 1 ≤ p ∧ p ≤ L ∧ g^[p] w = w) :
    g^[clePeriod g L w] w = w ∧ 1 ≤ clePeriod g L w := by
  obtain ⟨p, hp1, hpL, hper⟩ := hex
  unfold clePeriod
  cases hfk : (List.range L).find? (fun j => g^[j+1] w == w) with
  | none =>
    exfalso
    have hnone := List.find?_eq_none.1 hfk (p - 1) (List.mem_range.2 (by omega))
    apply hnone
    simp only [beq_iff_eq]
    have hpp : p - 1 + 1 = p := by omega
    rw [hpp]
    exact hper
  | some j =>
    have hpj := List.find?_some hfk
    simp only [beq_iff_eq] at hpj
    refine ⟨hpj, ?_⟩
    show 1 ≤ j + 1
    omega

theorem cycleList_mem (g : Nat → Nat) (k w : Nat) (c : Nat) :
    c ∈ cycleList g k w ↔ ∃ j, j < k ∧ g^[j] w = c := by
  simp only [cycleList, List.mem_map, List.mem_range]

theorem filter_length_lt (p : Nat → Bool) :
    ∀ (l : List Nat) (x : Nat), x ∈ l → p x = false → (l.filter p).length < l.length := by
  intro l
  induction l with
  | nil => intro x hx; cases hx
  | cons a as ih =>
    intro x hx hpx
    rcases List.mem_cons.1 hx with rfl | hmem
    · rw [List.filter_cons, hpx]
      simp only [List.length_cons]
      exact Nat.lt_succ_of_le (List.length_filter_le p as)
    · rw [List.filter_cons]
      cases hpa : p a with
      | true =>
        simp only [List.length_cons]
        exact Nat.succ_lt_succ (ih x hmem hpx)
      | false =>
        simp only [List.length_cons]
        exact Nat.lt_succ_of_lt (ih x hmem hpx)

theorem contractAlive_mem (alive C : List Nat) (w v : Nat) :
    v ∈ contractAlive alive C w ↔ v ∈ alive ∧ (v = w ∨ v ∉ C) := by
  simp [contractAlive, List.mem_filter]

theorem expand_spec (alive alive' : List Nat) (f h' : Nat → Nat) (C : List Nat)
    (w cstar : Nat) (bestC : Nat → Nat) (k p : Nat)
    (hal_mem : ∀ v, v ∈ alive' ↔ v ∈ alive ∧ (v = w ∨ v ∉ C))
    (hfspec : ∀ v ∈ alive, v ≠ 0 → f v ∈ alive ∧ f v ≠ v)
    (hCsub : ∀ c ∈ C, c ∈ alive)
    (hC0 : ∀ c ∈ C, c ≠ 0)
    (hCw : w ∈ C)
    (hpk : p < k)
    (hper : (stepf f)^[k] w = w)
    (hcsp : cstar = (stepf f)^[p] w)
    (hCeq : C = cycleList (stepf f) k w)
    (hrec_a : ∀ v ∈ alive', v ≠ 0 → h' v ∈ alive' ∧ h' v ≠ v)
    (hrec_b : ∀ v ∈ alive', ReachesRoot (stepf h') v)
    (hbestC : ∀ v, bestC v ∈ C)
    (hcsC : cstar ∈ C) :
    HeadSpec alive (expandHeads f h' C w cstar bestC) := by
  set H := expandHeads f h' C w cstar bestC with hH
  have hwne : w ≠ 0 := hC0 w hCw
  have hwal : w ∈ alive := hCsub w hCw
  have hw' : w ∈ alive' := (hal_mem w).2 ⟨hwal, Or.inl rfl⟩
  have hal_sub : ∀ x ∈ alive', x ∈ alive := fun x hx => ((hal_mem x).1 hx).1
  have hu'mem : h' w ∈ alive' := (hrec_a w hw' hwne).1
  have hu'ne : h' w ≠ w := (hrec_a w hw' hwne).2
  have hcs0 : cstar ≠ 0 := hC0 _ hcsC
  have hH_cyc : ∀ c ∈ C, c ≠ cstar → H c = f c := by
    intro c hc hne
    simp [hH, expandHeads, hc, hne]
  have hH_cs : H cstar = h' w := by
    simp [hH, expandHeads, hcsC]
  have hH_into : ∀ v, v ∉ C → h' v = w → H v = bestC v := by
    intro v hv hw2
    simp [hH, expandHeads, hv, hw2]
  have hH_out : ∀ v, v ∉ C → h' v ≠ w → H v = h' v := by
    intro v hv hw2
    simp [hH, expandHeads, hv, hw2]
  have main : ∀ x, ReachesRoot (stepf h') x → x ∈ alive' →
      ((x = w → ∀ c ∈ C, ReachesRoot (stepf H) c) ∧ (x ≠ w → ReachesRoot (stepf H) x)) := by
    intro x hx
    induction hx with
    | base =>
      intro _
      exact ⟨fun hw0 => absurd hw0.symm hwne, fun _ => ReachesRoot.base⟩
    | step v hsub ih =>
      intro hmem
      by_cases hv0 : v = 0
      · subst hv0
        exact ⟨fun hw0 => absurd hw0.symm hwne, fun _ => ReachesRoot.base⟩
      · have hsv : stepf h' v = h' v := if_neg hv0
        rw [hsv] at ih
        have hh'mem : h' v ∈ alive' := (hrec_a v hmem hv0).1
        have hh'ne : h' v ≠ v := (hrec_a v hmem hv0).2
        have ihv := ih hh'mem
        constructor
        · intro hvw
          have hu'w : h' v ≠ w := fun hc => hh'ne (hc.trans hvw.symm)
          have hreach_u' : ReachesRoot (stepf H) (h' v) := ihv.2 hu'w
          have hHcs : stepf H cstar = h' v := by
            have e0 : stepf H cstar = H cstar := if_neg hcs0
            rw [e0, hH_cs, ← hvw]
          have hreach_cs : ReachesRoot (stepf H) cstar :=
            ReachesRoot.step _ (by rw [hHcs]; exact hreach_u')
          intro c hc
          obtain ⟨j, hj, rfl⟩ := (cycleList_mem (stepf f) k w c).1 (hCeq ▸ hc)
          refine cycle_reach (stepf H) (stepf f) k w p hpk hper ?_ ?_ j hj
          · intro j' hj' hne
            have hcj : (stepf f)^[j'] w ∈ C := by
              rw [hCeq]
              exact (cycleList_mem _ _ _ _).2 ⟨j', hj', rfl⟩
            have hcne0 := hC0 _ hcj
            have hcnecs : (stepf f)^[j'] w ≠ cstar := by rw [hcsp]; exact hne
            have e1 : stepf H ((stepf f)^[j'] w) = H ((stepf f)^[j'] w) := if_neg hcne0
            have e2 : stepf f ((stepf f)^[j'] w) = f ((stepf f)^[j'] w) := if_neg hcne0
            rw [e1, e2, hH_cyc _ hcj hcnecs]
          · rw [← hcsp]
            exact hreach_cs
        · intro hvw
          have hvC : v ∉ C := by
            rcases ((hal_mem v).1 hmem).2 with h | h
            · exact absurd h hvw
            · exact h
          by_cases hh'w : h' v = w
          · have hall := ihv.1 hh'w
            have hHv : stepf H v = bestC v := by
              have e0 : stepf H v = H v := if_neg hv0
              rw [e0, hH_into v hvC hh'w]
            exact ReachesRoot.step _ (by rw [hHv]; exact hall (bestC v) (hbestC v))
          · have hHv : stepf H v = h' v := by
              have e0 : stepf H v = H v := if_neg hv0
              rw [e0, hH_out v hvC hh'w]
            exact ReachesRoot.step _ (by rw [hHv]; exact ihv.2 hh'w)
  constructor
  · intro v hv hv0
    by_cases hvC : v ∈ C
    · by_cases hvcs : v = cstar
      · rw [hvcs, hH_cs]
        constructor
        · exact hal_sub _ hu'mem
        · intro hc
          have hcs' : cstar ∈ alive' := hc ▸ hu'mem
          rcases ((hal_mem cstar).1 hcs').2 with hcw | hnc
          · exact hu'ne (hc.trans hcw)
          · exact hnc hcsC
      · rw [hH_cyc v hvC hvcs]
        exact hfspec v hv hv0
    · by_cases hh'w : h' v = w
      · rw [hH_into v hvC hh'w]
        exact ⟨hCsub _ (hbestC v), fun hc => hvC (hc ▸ hbestC v)⟩
      · have hv' : v ∈ alive' := (hal_mem v).2 ⟨hv, Or.inr hvC⟩
        rw [hH_out v hvC hh'w]
        exact ⟨hal_sub _ (hrec_a v hv' hv0).1, (hrec_a v hv' hv0).2⟩
  · intro v hv
    by_cases hvC : v ∈ C
    · exact (main w (hrec_b w hw') hw').1 rfl v hvC
    · have hv' : v ∈ alive' := (hal_mem v).2 ⟨hv, Or.inr hvC⟩
      have hvw : v ≠ w := fun hc => hvC (hc ▸ hCw)
      exact (main v (hrec_b v hv') hv').2 hvw

theorem iterate_split (g : Nat → Nat) (k j : Nat) (hj : j ≤ k) (x : Nat) :
    g^[k] x = g^[k - j] (g^[j] x) := by
  have hkj : k = k - j + j := by omega
  conv_lhs => rw [hkj]
  exact Function.iterate_add_apply g (k - j) j x

theorem cleStep_spec (recur : List Nat → (Nat → Nat → ℚ) → Nat → Nat)
    (alive : List Nat) (score : Nat → Nat → ℚ)
    (hnd : alive.Nodup) (h0 : 0 ∈ alive)
    (hrec : ∀ (a : List Nat) (s : Nat → Nat → ℚ), a.Nodup → 0 ∈ a →
      a.length < alive.length → HeadSpec a (recur a s)) :
    HeadSpec alive (cleStep recur alive score) := by
  simp only [cleStep]
  split
  next hfind =>
    constructor
    · intro v hv hv0
      exact greedyHead_spec score alive v hnd h0 hv hv0
    · intro v hv
      have hall := List.find?_eq_none.1 hfind v hv
      simp only [bne_iff_ne, ne_eq, not_not] at hall
      exact reaches_of_iterate _ _ _ hall
  next v0 hfind =>
    set f := greedyHead score alive with hf
    set g := stepf f with hg
    set L := alive.length with hL
    set w := g^[L] v0 with hw
    set k := clePeriod g L w with hk
    set C := cycleList g k w with hCdef
    set alive' := contractAlive alive C w with hal
    set score' := contractScore score f C w with hscd
    set h' := recur alive' score' with hh'
    set u' := h' w with hu'
    set cstar := cleCstar score f C w u' with hcsd
    set bestC := (fun v => (argmaxList (fun c => score v c) C).getD w) with hbc
    have hgmem : ∀ v ∈ alive, g v ∈ alive := fun v hv => stepf_mem score alive hnd h0 v hv
    have hv0mem : v0 ∈ alive := List.mem_of_find?_eq_some hfind
    have hv0bad : g^[L] v0 ≠ 0 := by
      have hpred := List.find?_some hfind
      simpa using hpred
    have hwne : w ≠ 0 := hv0bad
    have hwmem : w ∈ alive := stepf_iterate_mem score alive hnd h0 L v0 hv0mem
    have hper0 : ∃ p, 1 ≤ p ∧ p ≤ L ∧ g^[p] w = w := exists_period g alive v0 hgmem hv0mem
    have hperk : g^[k] w = w := (clePeriod_spec g L w hper0).1
    have hk1 : 1 ≤ k := (clePeriod_spec g L w hper0).2
    have hfw := greedyHead_spec score alive w hnd h0 hwmem hwne
    have hgw : g w = f w := if_neg hwne
    have hgwne : g w ≠ w := by rw [hgw]; exact hfw.2
    have hk2 : 2 ≤ k := by
      rcases Nat.lt_or_ge k 2 with h2 | h2
      · exfalso
        have hk1' : k = 1 := by omega
        rw [hk1'] at hperk
        simp only [Function.iterate_one] at hperk
        exact hgwne hperk
      · exact h2
    have hCmem : ∀ c, c ∈ C ↔ ∃ j, j < k ∧ g^[j] w = c := fun c => cycleList_mem g k w c
    have hCw : w ∈ C := (hCmem w).2 ⟨0, by omega, rfl⟩
    have hCgw : g w ∈ C := (hCmem (g w)).2 ⟨1, by omega, by simp⟩
    have hCsub : ∀ c ∈ C, c ∈ alive := by
      intro c hc
      obtain ⟨j, hj, rfl⟩ := (hCmem c).1 hc
      exact stepf_iterate_mem score alive hnd h0 j w hwmem
    have hC0 : ∀ c ∈ C, c ≠ 0 := by
      intro c hc hc0
      obtain ⟨j, hj, hgj⟩ := (hCmem c).1 hc
      apply hwne
      have hsplit : g^[k] w = g^[k - j] (g^[j] w) := iterate_split g k j (by omega) w
      have hzero : g^[k - j] (0 : Nat) = 0 := stepf_iterate_zero f (k - j)
      rw [← hperk, hsplit, hgj, hc0, hzero]
    have hal_mem : ∀ v, v ∈ alive' ↔ v ∈ alive ∧ (v = w ∨ v ∉ C) :=
      fun v => contractAlive_mem alive C w v
    have hal_nodup : alive'.Nodup := hnd.filter _
    have hal_0 : 0 ∈ alive' := (hal_mem 0).2 ⟨h0, Or.inr (fun hc => hC0 0 hc rfl)⟩
    have hal_len : alive'.length < L := by
      have hpfalse : (decide (g w = w ∨ g w ∉ C)) = false := by
        simp [hgwne, hCgw]
      exact filter_length_lt _ alive (g w) (hgmem w hwmem) hpfalse
    have hspec' : HeadSpec alive' h' := hrec alive' score' hal_nodup hal_0 hal_len
    obtain ⟨hrec_a, hrec_b⟩ := hspec'
    have hCne : C ≠ [] := fun hc => by rw [hc] at hCw; cases hCw
    have hcsC : cstar ∈ C := by
      cases hax : argmaxList (fun c => score c u' - score c (f c)) C with
      | none =>
        exfalso
        exact hCne ((argmaxList_eq_none _ C).1 hax)
      | some x =>
        have hxeq : cstar = x := by
          rw [hcsd]
          unfold cleCstar
          rw [hax]
          rfl
        rw [hxeq]
        exact argmaxList_mem _ C x hax
    obtain ⟨pp, hpp, hcsp⟩ := (hCmem cstar).1 hcsC
    have hbestC : ∀ v, bestC v ∈ C := by
      intro v
      cases hax : argmaxList (fun c => score v c) C with
      | none =>
        exfalso
        exact hCne ((argmaxList_eq_none _ C).1 hax)
      | some x =>
        have hxeq : bestC v = x := by
          rw [hbc]
          simp only
          rw [hax]
          rfl
        rw [hxeq]
        exact argmaxList_mem _ C x hax
    exact expand_spec alive alive' f h' C w cstar bestC k pp hal_mem
      (fun v hv hv0 => greedyHead_spec score alive v hnd h0 hv hv0)
      hCsub hC0 hCw hpp hperk hcsp.symm hCdef hrec_a hrec_b hbestC hcsC

theorem cleAux_spec : ∀ (fuel : Nat) (alive : List Nat) (score : Nat → Nat → ℚ),
    alive.Nodup → 0 ∈ alive → alive.length ≤ fuel + 1 →
    HeadSpec alive (cleAux fuel alive score) := by
  intro fuel
  induction fuel with
  | zero =>
    intro alive score hnd h0 hlen
    have hpos : 0 < alive.length := List.length_pos.2 (List.ne_nil_of_mem h0)
    have h1 : alive.length = 1 := by omega
    obtain ⟨a, ha⟩ := List.length_eq_one.1 h1
    subst ha
    have ha0 : a = 0 := by
      simp only [List.mem_singleton] at h0
      omega
    subst ha0
    constructor
    · intro v hv hv0
      exfalso
      simp only [List.mem_singleton] at hv
      exact hv0 hv
    · intro v hv
      simp only [List.mem_singleton] at hv
      subst hv
      exact ReachesRoot.base
  | succ n ih =>
    intro alive score hnd h0 hlen
    show HeadSpec alive (cleStep (cleAux n) alive score)
    exact cleStep_spec (cleAux n) alive score hnd h0
      (fun a s hnd' h0' hlt => ih a s hnd' h0' (by omega))

theorem reaches_transfer (g g' : Nat → Nat) (S : Nat → Prop)
    (hagree : ∀ x, S x → g' x = g x) (hcl : ∀ x, S x → S (g x)) :
    ∀ v, ReachesRoot g v → S v → ∃ t, g'^[t] v = 0 := by
  intro v hv
  induction hv with
  | base => intro _; exact ⟨0, rfl⟩
  | step x hsub ih =>
    intro hS
    obtain ⟨t, ht⟩ := ih (hcl x hS)
    refine ⟨t + 1, ?_⟩
    rw [Function.iterate_succ_apply, hagree x hS]
    exact ht

/-- Claim C1: on every valid (square, at least 2×2) score matrix, the head
sequence decoded by `predict_heads` — the Chu–Liu/Edmonds result with the
virtual-root entry dropped — is a valid dependency tree: it assigns every
non-root index `1 … n-1` exactly one head (position `i` of the sequence is
the unique head of dependent `i+1`), the head is a valid node index, no
index is its own head, and following head pointers from any node reaches
the virtual root 0 after finitely many steps, so there are no cycles. -/
theorem cle_decode_is_tree (m : List (List ℚ)) (h2 : 2 ≤ m.length)
    (hsq : ∀ row ∈ m, row.length = m.length) :
    ∃ full, chuLiuEdmonds m = Except.ok full ∧
      (full.drop 1).length = m.length - 1 ∧
      (∀ i, i < m.length - 1 →
        (full.drop 1).getD i 0 < m.length ∧ (full.drop 1).getD i 0 ≠ i + 1) ∧
      (∀ v, v < m.length → ∃ t, (followHeads (full.drop 1))^[t] v = 0) := by
  have hok : chuLiuEdmonds m = Except.ok ((List.range m.length).map
      (fun v => if v = 0 then 0 else cleAux m.length (List.range m.length)
        (fun v u => (m.getD v []).getD u 0) v)) := by
    unfold chuLiuEdmonds
    rw [if_pos ⟨h2, hsq⟩]
  have hspec : HeadSpec (List.range m.length)
      (cleAux m.length (List.range m.length) (fun v u => (m.getD v []).getD u 0)) :=
    cleAux_spec m.length (List.range m.length) (fun v u => (m.getD v []).getD u 0)
      (List.nodup_range m.length) (List.mem_range.2 (by omega)) (by simp)
  obtain ⟨hsa, hsb⟩ := hspec
  refine ⟨_, hok, ?_, ?_, ?_⟩
  · simp
  · intro i hi
    have h1i : i + 1 < m.length := by omega
    have h1i0 : ¬(i + 1 = 0) := by omega
    have hidx : (((List.range m.length).map
        (fun v => if v = 0 then 0 else cleAux m.length (List.range m.length)
          (fun v u => (m.getD v []).getD u 0) v)).drop 1).getD i 0 =
        cleAux m.length (List.range m.length) (fun v u => (m.getD v []).getD u 0) (i + 1) := by
      simp [List.getD, List.getElem?_drop, List.getElem?_map, List.getElem?_range, h1i, h1i0]
    rw [hidx]
    have hmem : i + 1 ∈ List.range m.length := List.mem_range.2 h1i
    have := hsa (i + 1) hmem (by omega)
    exact ⟨List.mem_range.1 this.1, this.2⟩
  · intro v hv
    have hagree : ∀ x, x ∈ List.range m.length →
        followHeads (((List.range m.length).map
          (fun v => if v = 0 then 0 else cleAux m.length (List.range m.length)
            (fun v u => (m.getD v []).getD u 0) v)).drop 1) x =
        stepf (cleAux m.length (List.range m.length) (fun v u => (m.getD v []).getD u 0)) x := by
      intro x hx
      by_cases hx0 : x = 0
      · subst hx0
        rfl
      · have hxn : x < m.length := List.mem_range.1 hx
        have h1x : x - 1 + 1 < m.length := by omega
        have h1x0 : ¬(x - 1 + 1 = 0) := by omega
        have hfh : followHeads (((List.range m.length).map
            (fun v => if v = 0 then 0 else cleAux m.length (List.range m.length)
              (fun v u => (m.getD v []).getD u 0) v)).drop 1) x =
            cleAux m.length (List.range m.length) (fun v u => (m.getD v []).getD u 0)
              (x - 1 + 1) := by
          unfold followHeads
          rw [if_neg hx0]
          simp [List.getD, List.getElem?_drop, List.getElem?_map, List.getElem?_range, h1x, h1x0]
        have hxx : x - 1 + 1 = x := by omega
        rw [hfh, hxx]
        show _ = if x = 0 then 0 else _
        rw [if_neg hx0]
    have hcl : ∀ x, x ∈ List.range m.length →
        stepf (cleAux m.length (List.range m.length) (fun v u => (m.getD v []).getD u 0)) x
          ∈ List.range m.length := by
      intro x hx
      by_cases hx0 : x = 0
      · subst hx0
        show (if (0 : Nat) = 0 then 0 else _) ∈ _
        rw [if_pos rfl]
        exact List.mem_range.2 (by omega)
      · show (if x = 0 then 0 else _) ∈ _
        rw [if_neg hx0]
        exact (hsa x hx hx0).1
    exact reaches_transfer _ _ (fun x => x ∈ List.range m.length) hagree hcl v
      (hsb v (List.mem_range.2 hv)) (List.mem_range.2 hv)

/-- Closed instance of the C1 theorem: a 3×3 matrix whose greedy choice is
the 2-cycle between nodes 1 and 2 still decodes to a valid tree. -/
theorem cle_decode_is_tree_witness :
    ∃ full, chuLiuEdmonds [[0, 0, 0], [1/10, 0, 9/10], [1/10, 9/10, 0]] = Except.ok full ∧
      (full.drop 1).length = 2 ∧
      (∀ i, i < 2 → (full.drop 1).getD i 0 < 3 ∧ (full.drop 1).getD i 0 ≠ i + 1) ∧
      (∀ v, v < 3 → ∃ t, (followHeads (full.drop 1))^[t] v = 0) :=
  cle_decode_is_tree [[0, 0, 0], [1/10, 0, 9/10], [1/10, 9/10, 0]] (by decide) (by decide)
